import Mathlib

set_option maxHeartbeats 1600000

/-!
Verification of the `fatbinary` library (CUDA fatbinary container codec).

The development shallowly embeds the library's data model and operations:

* byte streams are `List Nat` (each element a byte value);
* the container / entry header structures mirror `FatBinaryHeader` and
  `FatBinaryEntryHeader` from `src/fatbinary/src/lib.rs` with `Nat` fields,
  machine-integer truncation made explicit with `% 2^w` where the source casts;
* fallible operations (reader, decompressor, in-place decompression) return
  `Except`/`Option`, with `none`/error covering Rust panics and I/O errors;
* the reader's `Seek`-based navigation becomes explicit position arithmetic
  over the byte list, and its `while` loop becomes a fueled recursion
  (every loop iteration of the source advances the consumed counter, so the
  chosen fuel is never exhausted on runs that terminate in the source).

Two iterations of the library exist in the repository; the current crate
(`src/fatbinary/src/lib.rs`) is embedded as the primary model, and the older
iteration (`src/src/lib.rs`, the only one that has the `InvalidOffset` error)
is embedded separately in the `Old` namespace.
-/

/- ### Little-endian byte encoding helpers -/

/-- Combine a list of bytes little-endian into a natural number. -/
def bytesToNatLE : List Nat → Nat
  | [] => 0
  | b :: r => b + 256 * bytesToNatLE r

/-- Encode `n` as exactly `w` little-endian bytes (truncating to `n % 256^w`,
which is what writing a `w`-byte machine integer does). -/
def leBytes : Nat → Nat → List Nat
  | 0, _ => []
  | w + 1, n => n % 256 :: leBytes w (n / 256)

theorem leBytes_length (w n : Nat) : (leBytes w n).length = w := by
  induction w generalizing n with
  | zero => rfl
  | succ w ih => simp [leBytes, ih]

theorem bytesToNatLE_leBytes (w n : Nat) :
    bytesToNatLE (leBytes w n) = n % 256 ^ w := by
  induction w generalizing n with
  | zero => simp [leBytes, bytesToNatLE, Nat.mod_one]
  | succ w ih =>
    simp only [leBytes, bytesToNatLE, ih]
    rw [pow_succ, mul_comm (256 ^ w) 256, Nat.mod_mul]

/-- Read `w` raw bytes at absolute position `pos`; `none` models the reader
running out of input (`read_exact` / `binread` end-of-file errors). -/
def readBytes? (l : List Nat) (pos w : Nat) : Option (List Nat) :=
  if pos + w ≤ l.length then some ((l.drop pos).take w) else none

/-- Read a `w`-byte little-endian integer at absolute position `pos`. -/
def readLE? (l : List Nat) (pos w : Nat) : Option Nat :=
  (readBytes? l pos w).map bytesToNatLE

/-- Sequential parse of a `w`-byte little-endian integer from the front of a
list, returning the value and the remaining bytes (the shape of a single
`binread` field read). -/
def parseU (w : Nat) (l : List Nat) : Option (Nat × List Nat) :=
  if w ≤ l.length then some (bytesToNatLE (l.take w), l.drop w) else none

theorem parseU_append (l rest : List Nat) :
    parseU l.length (l ++ rest) = some (bytesToNatLE l, rest) := by
  simp [parseU, List.take_left, List.drop_left]

theorem parseU_leBytes (w n : Nat) (rest : List Nat) :
    parseU w (leBytes w n ++ rest) = some (n % 256 ^ w, rest) := by
  have h := parseU_append (leBytes w n) rest
  rw [leBytes_length, bytesToNatLE_leBytes] at h
  exact h

theorem readBytes?_append (pre l : List Nat) (k w : Nat) :
    readBytes? (pre ++ l) (pre.length + k) w = readBytes? l k w := by
  simp [readBytes?, List.drop_append, Nat.add_assoc]

/-- Positional variant of `readBytes?_append` for rewriting at a literal
position. -/
theorem readBytes?_append_at (pre l : List Nat) (pos k w : Nat)
    (h : pos = pre.length + k) :
    readBytes? (pre ++ l) pos w = readBytes? l k w := by
  subst h; exact readBytes?_append pre l k w

theorem readLE?_append_at (pre l : List Nat) (pos k w : Nat)
    (h : pos = pre.length + k) :
    readLE? (pre ++ l) pos w = readLE? l k w := by
  simp [readLE?, readBytes?_append_at pre l pos k w h]

theorem readBytes?_prefix (l rest : List Nat) :
    readBytes? (l ++ rest) 0 l.length = some l := by
  simp [readBytes?, List.take_left]

/- ### UTF-8 validation

`String::from_utf8` accepts exactly the well-formed UTF-8 byte sequences;
this is the standard table (RFC 3629): 1-byte `00..7F`; 2-byte `C2..DF`
`80..BF`; 3-byte `E0 A0..BF`, `E1..EC 80..BF`, `ED 80..9F`, `EE..EF 80..BF`,
each followed by one `80..BF`; 4-byte `F0 90..BF`, `F1..F3 80..BF`,
`F4 80..8F`, each followed by two `80..BF`. Strings are modelled as their
byte lists (UTF-8 decoding is injective, so list equality coincides with
string equality). -/

/-- Check that a byte is a UTF-8 continuation byte. -/
def utf8Cont (b : Nat) : Bool := 0x80 ≤ b && b ≤ 0xBF

/-- Decide whether a byte list is well-formed UTF-8 (the acceptance condition
of `String::from_utf8`). -/
def utf8Valid : List Nat → Bool
  | [] => true
  | b :: rest =>
    if b ≤ 0x7F then utf8Valid rest
    else if 0xC2 ≤ b && b ≤ 0xDF then
      match rest with
      | c1 :: r => utf8Cont c1 && utf8Valid r
      | [] => false
    else if 0xE0 ≤ b && b ≤ 0xEF then
      match rest with
      | c1 :: c2 :: r =>
        (if b = 0xE0 then 0xA0 ≤ c1 && c1 ≤ 0xBF
         else if b = 0xED then 0x80 ≤ c1 && c1 ≤ 0x9F
         else utf8Cont c1) && utf8Cont c2 && utf8Valid r
      | _ => false
    else if 0xF0 ≤ b && b ≤ 0xF4 then
      match rest with
      | c1 :: c2 :: c3 :: r =>
        (if b = 0xF0 then 0x90 ≤ c1 && c1 ≤ 0xBF
         else if b = 0xF4 then 0x80 ≤ c1 && c1 ≤ 0x8F
         else utf8Cont c1) && utf8Cont c2 && utf8Cont c3 && utf8Valid r
      | _ => false
    else false

/- ### Error taxonomy (`FatBinaryError`) -/

/-- Errors of the library, mirroring `FatBinaryError`. The `binread`, `ioErr`
and `fromUtf8` constructors stand for the wrapped foreign errors (field
payloads of those wrappers are not modelled); `diverge` marks a state in
which the source's `while` loop would never terminate (fuel exhaustion in the
embedding; unreachable for fuel larger than the iteration count). -/
inductive FatBinaryError where
  | invalidMagic (expected got : Nat)
  | invalidVersion (expected got : Nat)
  | invalidHeaderSize (expected got : Nat)
  | invalidOffset (expected got : Nat)
  | binread
  | ioErr
  | fromUtf8
  | diverge
deriving DecidableEq, Repr

/- ### Data model -/

/-- Flag constant: compiled for 64-bit (`FATBINARY_FLAG_COMPILE_SIZE_64BIT`). -/
def FATBINARY_FLAG_COMPILE_SIZE_64BIT : Nat := 0x00000001

/-- Flag constant: debug info (`FATBINARY_FLAG_DEBUG`). -/
def FATBINARY_FLAG_DEBUG : Nat := 0x00000002

/-- Flag constant: compressed payload (`FATBINARY_FLAG_COMPRESSED`). -/
def FATBINARY_FLAG_COMPRESSED : Nat := 0x00002000

/-- Container magic (`FAT_BINARY_MAGIC`). -/
def FAT_BINARY_MAGIC : Nat := 0xBA55ED50

/-- Container header (`FatBinaryHeader`): 16 bytes, little-endian. -/
structure FatBinaryHeader where
  magic : Nat
  version : Nat
  header_size : Nat
  size : Nat
deriving DecidableEq, Repr

/-- Entry header (`FatBinaryEntryHeader`): the fixed leading 64 bytes.
`unknown1` models the source field `__unknown1`. -/
structure FatBinaryEntryHeader where
  kind : Nat
  unknown1 : Nat
  header_size : Nat
  size : Nat
  compressed_size : Nat
  options_offset : Nat
  minor : Nat
  major : Nat
  arch : Nat
  identifier_offset : Nat
  identifier_len : Nat
  flags : Nat
  zero : Nat
  decompressed_size : Nat
deriving DecidableEq, Repr

/-- A fatbinary entry (`FatBinaryEntry`). The optional `String` fields of the
source are modelled as their UTF-8 byte lists. -/
structure FatBinaryEntry where
  entry_header : FatBinaryEntryHeader
  identifier : Option (List Nat)
  ptxas_options : Option (List Nat)
  payload : List Nat
deriving DecidableEq, Repr

/-- A fatbinary file (`FatBinary`). -/
structure FatBinary where
  entries : List FatBinaryEntry
deriving DecidableEq, Repr

/- ### The decompressor (`fn decompress`)

The source walks `in_pos` over the compressed bytes. Both length-extension
loops (`lines 142-149` and `lines 162-169` of `src/fatbinary/src/lib.rs`)
consume bytes starting at a position, summing them into an accumulator, and
stop after consuming the first byte `≠ 0xff`; `extendLength c pos acc`
models one such loop, returning the accumulated length and the position just
past the last consumed byte. (In the literal-length loop the source keeps
`in_pos` on the last consumed byte and adds 1 afterwards; in the match-length
loop it advances `in_pos` past it directly. Both leave the cursor just past
the last extension byte, which is the convention used here.) `none` models a
Rust index-out-of-bounds panic. -/

def extendLength (c : List Nat) (pos acc : Nat) : Option (Nat × Nat) :=
  if h : pos < c.length then
    let x := c.get ⟨pos, h⟩
    if x = 0xff then extendLength c (pos + 1) (acc + x)
    else some (acc + x, pos + 1)
  else none
termination_by c.length - pos
decreasing_by omega

/-- Match copy (`lines 171-174`): pushes `count` bytes, each read at the
growing output's index `idx + i` where `idx = res_len - back_offset` was
fixed before the copy. `none` models the out-of-bounds panic (which the
source hits when `back_offset = 0`). -/
def matchCopy (res : List Nat) (idx : Nat) : Nat → Option (List Nat)
  | 0 => some res
  | count + 1 =>
    match res.get? idx with
    | none => none
    | some b => matchCopy (res ++ [b]) (idx + 1) count

/-- One-iteration-per-fuel-unit embedding of the `while in_pos < len` loop of
`fn decompress`. Each iteration advances `in_pos` by at least one, so fuel
`c.length + 1` can never run out; the `none` on zero fuel is dead code kept
for totality. -/
def decompressLoop (c : List Nat) : Nat → Nat → List Nat → Option (List Nat)
  | fuel, in_pos, res =>
    if in_pos < c.length then
      match fuel with
      | 0 => none
      | fuel + 1 =>
        match c.get? in_pos with
        | none => none
        | some b =>
          let next_non_compressed_len := (b &&& 0xf0) >>> 4
          let next_compressed_len := 4 + (b &&& 0xf)
          match
            (if next_non_compressed_len = 0xf then
              extendLength c (in_pos + 1) next_non_compressed_len
            else some (next_non_compressed_len, in_pos + 1)) with
          | none => none
          | some (lit_len, lit_start) =>
            -- res.extend(&compressed[in_pos..in_pos + lit_len]); the slice
            -- panics when it runs past the end of the input
            if lit_start + lit_len ≤ c.length then
              let res := res ++ (c.drop lit_start).take lit_len
              let pos := lit_start + lit_len
              if pos ≥ c.length then some res
              else
                match c.get? pos, c.get? (pos + 1) with
                | some b0, some b1 =>
                  let back_offset := b0 + (b1 <<< 8)
                  match
                    (if next_compressed_len = 0xf + 4 then
                      extendLength c (pos + 2) next_compressed_len
                    else some (next_compressed_len, pos + 2)) with
                  | none => none
                  | some (match_len, next_pos) =>
                    -- res_len - back_offset underflows (panics) when the
                    -- back offset exceeds the produced output
                    if back_offset ≤ res.length then
                      match matchCopy res (res.length - back_offset) match_len with
                      | none => none
                      | some res => decompressLoop c fuel next_pos res
                    else none
                | _, _ => none
            else none
    else some res

/-- Decompress a compressed payload (`fn decompress`). -/
def decompress (c : List Nat) : Option (List Nat) :=
  decompressLoop c (c.length + 1) 0 []

/- ### Entry operations -/

/-- Check if payload is compressed (`FatBinaryEntry::is_compressed`). -/
def FatBinaryEntry.isCompressed (e : FatBinaryEntry) : Bool :=
  e.entry_header.flags &&& FATBINARY_FLAG_COMPRESSED ≠ 0

/-- Check if this entry contains ELF (`FatBinaryEntry::contains_elf`). -/
def FatBinaryEntry.containsElf (e : FatBinaryEntry) : Bool :=
  e.entry_header.kind = 2

/-- Create a new entry (`FatBinaryEntry::new`). -/
def FatBinaryEntry.new (is_elf : Bool) (sm_arch major minor : Nat)
    (is_64bit : Bool) (payload : List Nat) : FatBinaryEntry where
  entry_header :=
    { kind := if is_elf then 2 else 1
      unknown1 := 0x0101
      header_size := 64
      size := payload.length
      compressed_size := 0
      options_offset := 0x40
      minor := minor
      major := major
      arch := sm_arch
      identifier_offset := 0
      identifier_len := 0
      flags := if is_64bit then FATBINARY_FLAG_COMPILE_SIZE_64BIT else 0
      zero := 0
      decompressed_size := 0 }
  identifier := none
  ptxas_options := none
  payload := payload

/-- ELF magic bytes checked by `new_auto`. -/
def elfMagic : List Nat := [0x7f, 0x45, 0x4c, 0x46]

/-- Create a new entry with autodetection (`FatBinaryEntry::new_auto`);
`payload.starts_with(&[0x7f, 0x45, 0x4c, 0x46])` is `payload.take 4 =
elfMagic` (for lists, `starts_with p ↔ take p.length = p`). -/
def FatBinaryEntry.newAuto (sm_arch : Nat) (payload : List Nat) : FatBinaryEntry :=
  let is_elf := payload.take 4 = elfMagic
  FatBinaryEntry.new is_elf sm_arch 0 0 true payload

/-- Replace the payload with decompressed data (`FatBinaryEntry::decompress`,
the in-place variant; named after the spec's `decompress_in_place` to avoid
shadowing the free `decompress` function inside its own body). `none` covers
the panics: a decompressor panic, or the `assert_eq!` on the decompressed
length. The source clears the compressed flag with
`flags &= !FATBINARY_FLAG_COMPRESSED` on `u64`. -/
def FatBinaryEntry.decompressInPlace (e : FatBinaryEntry) : Option FatBinaryEntry :=
  if e.isCompressed then
    -- self.payload[..compressed_size] panics when compressed_size > len
    if e.entry_header.compressed_size ≤ e.payload.length then
      match decompress (e.payload.take e.entry_header.compressed_size) with
      | none => none
      | some p =>
        if p.length = e.entry_header.decompressed_size then
          some
            { e with
              payload := p
              entry_header :=
                { e.entry_header with
                  flags := e.entry_header.flags &&& (2 ^ 64 - 1 - FATBINARY_FLAG_COMPRESSED)
                  size := e.entry_header.decompressed_size
                  compressed_size := 0
                  decompressed_size := 0 } }
        else none
    else none
  else some e

/-- Set the identifier (`FatBinaryEntry::set_identifier`). -/
def FatBinaryEntry.setIdentifier (e : FatBinaryEntry) (identifier : List Nat) :
    FatBinaryEntry :=
  { e with identifier := some identifier }

/-- Set the ptxas options (`FatBinaryEntry::set_ptxas_options`). -/
def FatBinaryEntry.setPtxasOptions (e : FatBinaryEntry) (options : List Nat) :
    FatBinaryEntry :=
  { e with ptxas_options := some options }

/- ### Container reader (`FatBinary::read`, current crate) -/

/-- Lift an optional value into `Except`, tagging the failure. -/
def orErr {α : Type} (o : Option α) (e : FatBinaryError) :
    Except FatBinaryError α :=
  match o with
  | none => .error e
  | some a => .ok a

/-- Parse the 16-byte container header (the `reader.read_le::<FatBinaryHeader>()`
call): four sequential little-endian fields. -/
def parseContainerHeader (bytes : List Nat) : Option FatBinaryHeader := do
  let (magic, r) ← parseU 4 bytes
  let (version, r) ← parseU 2 r
  let (header_size, r) ← parseU 2 r
  let (size, _) ← parseU 8 r
  pure ⟨magic, version, header_size, size⟩

/-- Parse the fixed 64-byte entry header (the
`reader.read_le::<FatBinaryEntryHeader>()` call): fourteen sequential
little-endian fields of the packed struct. -/
def parseEntryHeaderChunk (l : List Nat) : Option FatBinaryEntryHeader :=
  match parseU 2 l with
  | none => none
  | some (kind, r) =>
  match parseU 2 r with
  | none => none
  | some (unknown1, r) =>
  match parseU 4 r with
  | none => none
  | some (header_size, r) =>
  match parseU 8 r with
  | none => none
  | some (size, r) =>
  match parseU 4 r with
  | none => none
  | some (compressed_size, r) =>
  match parseU 4 r with
  | none => none
  | some (options_offset, r) =>
  match parseU 2 r with
  | none => none
  | some (minor, r) =>
  match parseU 2 r with
  | none => none
  | some (major, r) =>
  match parseU 4 r with
  | none => none
  | some (arch, r) =>
  match parseU 4 r with
  | none => none
  | some (identifier_offset, r) =>
  match parseU 4 r with
  | none => none
  | some (identifier_len, r) =>
  match parseU 8 r with
  | none => none
  | some (flags, r) =>
  match parseU 8 r with
  | none => none
  | some (zeroField, r) =>
  match parseU 8 r with
  | none => none
  | some (decompressed_size, _) =>
    some ⟨kind, unknown1, header_size, size, compressed_size, options_offset,
          minor, major, arch, identifier_offset, identifier_len, flags,
          zeroField, decompressed_size⟩

/-- The ptxas-options block of one read-loop iteration
(`// handle ptxas options`, lines 407-421): when the entry's
`options_offset` is nonzero, seek to `header_offset + options_offset`, read
the `(ptxas_options_offset, ptxas_options_size)` descriptor, and when the
inner offset is nonzero read and UTF-8-decode the option bytes at
`header_offset + ptxas_options_offset`. -/
def readPtxasOptions (bytes : List Nat) (header_offset : Nat)
    (entry_header : FatBinaryEntryHeader) :
    Except FatBinaryError (Option (List Nat)) :=
  if entry_header.options_offset > 0 then
    match readLE? bytes (header_offset + entry_header.options_offset) 4 with
    | none => .error .binread
    | some ptxas_options_offset =>
      match readLE? bytes (header_offset + entry_header.options_offset + 4) 4 with
      | none => .error .binread
      | some ptxas_options_size =>
        if ptxas_options_offset ≠ 0 then
          match readBytes? bytes (header_offset + ptxas_options_offset)
            ptxas_options_size with
          | none => .error .ioErr
          | some b => if utf8Valid b then .ok (some b) else .error .fromUtf8
        else .ok none
  else .ok none

/-- The object-name block of one read-loop iteration
(`// handle object name`, lines 423-430): when `identifier_offset` is
nonzero, read and UTF-8-decode `identifier_len` bytes at
`header_offset + identifier_offset`. -/
def readIdentifier (bytes : List Nat) (header_offset : Nat)
    (entry_header : FatBinaryEntryHeader) :
    Except FatBinaryError (Option (List Nat)) :=
  if entry_header.identifier_offset > 0 then
    match readBytes? bytes (header_offset + entry_header.identifier_offset)
      entry_header.identifier_len with
    | none => .error .ioErr
    | some b => if utf8Valid b then .ok (some b) else .error .fromUtf8
  else .ok none

/-- The entry loop of `FatBinary::read` (`while current_size < header.size`),
one fuel unit per iteration; besides the entries it returns the final value
of `current_size`, which the caller discards. The seeks of the source are
the explicit positions: the descriptor and string reads are the two helper
blocks above, and the payload sits at `header_offset + header_size`. The
source's two `current_size +=` statements appear here as the single
accumulated `current_size + header_size + size`. -/
def readEntries (bytes : List Nat) (fuel size pos current_size : Nat) :
    Except FatBinaryError (List FatBinaryEntry × Nat) :=
  if current_size < size then
    match fuel with
    | 0 => .error .diverge
    | fuel + 1 => do
      let header_offset := pos
      let chunk ← orErr (readBytes? bytes header_offset 64) .binread
      let entry_header ← orErr (parseEntryHeaderChunk chunk) .binread
      let ptxas_options ← readPtxasOptions bytes header_offset entry_header
      let identifier ← readIdentifier bytes header_offset entry_header
      let payload ←
        orErr (readBytes? bytes (header_offset + entry_header.header_size)
          entry_header.size) .ioErr
      let (rest, final) ← readEntries bytes fuel size
        (header_offset + entry_header.header_size + entry_header.size)
        (current_size + entry_header.header_size + entry_header.size)
      pure (⟨entry_header, identifier, ptxas_options, payload⟩ :: rest, final)
  else .ok ([], current_size)

/-- Read a fatbinary (`FatBinary::read`): parse and validate the container
header, then run the entry loop from position 16 with the consumed-byte
counter at 0. Fuel `header.size + 1` covers every terminating run of the
source loop, as each iteration adds at least 1 to the counter whenever it
makes progress (and adds `header_size + size`; a zero-progress iteration
would loop forever in the source, which the model maps to `diverge`). -/
def FatBinary.read (bytes : List Nat) : Except FatBinaryError FatBinary := do
  let header ← orErr (parseContainerHeader bytes) .binread
  if header.magic ≠ FAT_BINARY_MAGIC then
    throw (.invalidMagic FAT_BINARY_MAGIC header.magic)
  else if header.version ≠ 1 then
    throw (.invalidVersion 1 header.version)
  else if header.header_size ≠ 16 then
    throw (.invalidHeaderSize 16 header.header_size)
  else do
    let (entries, _) ← readEntries bytes (header.size + 1) header.size 16 0
    pure ⟨entries⟩

/- ### Container writer (`FatBinary::write`, current crate) -/

/-- Values of the sizing pass of `FatBinary::write` (lines 459-490) for one
entry. `% 2^32` marks the `as u32` casts of the source; `header_total` is
computed in `u64`. -/
structure EntrySizing where
  identifier_len : Nat
  ptxas_options_len : Nat
  identifier_offset : Nat
  ptxas_options_offset : Nat
  header_total : Nat
deriving DecidableEq, Repr

/-- Sizing pass of `FatBinary::write` for one entry. -/
def entrySizing (e : FatBinaryEntry) : EntrySizing :=
  let identifier_bytes := e.identifier.getD []
  let ptxas_options_bytes := e.ptxas_options.getD []
  let identifier_len := identifier_bytes.length % 2 ^ 32
  let ptxas_options_len := ptxas_options_bytes.length % 2 ^ 32
  let header_size := e.entry_header.header_size
  let ptxas_options_offset := (header_size + 8) % 2 ^ 32
  let identifier_offset := (ptxas_options_offset + ptxas_options_len) % 2 ^ 32
  let header_total := header_size + 8 + ptxas_options_len + identifier_len
  ⟨identifier_len, ptxas_options_len, identifier_offset, ptxas_options_offset,
   header_total⟩

/-- The mutable header copy the emission pass writes (lines 515-519):
`header_size`, `identifier_offset` and `identifier_len` are overwritten with
the recomputed values, everything else is taken from the in-memory header. -/
def writtenEntryHeader (e : FatBinaryEntry) : FatBinaryEntryHeader :=
  let s := entrySizing e
  { e.entry_header with
    header_size := s.header_total % 2 ^ 32
    identifier_offset := s.identifier_offset
    identifier_len := s.identifier_len }

/-- Byte layout of the fixed 64-byte entry header, in the field order the
emission pass writes (lines 522-535). -/
def entryHeaderBytes (h : FatBinaryEntryHeader) : List Nat :=
  leBytes 2 h.kind ++ leBytes 2 h.unknown1 ++ leBytes 4 h.header_size ++
  leBytes 8 h.size ++ leBytes 4 h.compressed_size ++
  leBytes 4 h.options_offset ++ leBytes 2 h.minor ++ leBytes 2 h.major ++
  leBytes 4 h.arch ++ leBytes 4 h.identifier_offset ++
  leBytes 4 h.identifier_len ++ leBytes 8 h.flags ++ leBytes 8 h.zero ++
  leBytes 8 h.decompressed_size

/-- Full byte output of the emission pass for one entry (lines 504-549):
header, 8-byte options descriptor, ptxas option bytes, identifier bytes,
payload. -/
def entryBytes (e : FatBinaryEntry) : List Nat :=
  let s := entrySizing e
  entryHeaderBytes (writtenEntryHeader e) ++
  (leBytes 4 s.ptxas_options_offset ++ leBytes 4 s.ptxas_options_len) ++
  e.ptxas_options.getD [] ++ e.identifier.getD [] ++ e.payload

/-- The `entry_total` of the sizing pass: recomputed header bytes plus the
entry's `size` field. -/
def entryTotal (e : FatBinaryEntry) : Nat :=
  (entrySizing e).header_total + e.entry_header.size

/-- The container `size` the writer emits: the `u64` sum of the entry totals. -/
def totalSize (c : FatBinary) : Nat :=
  (c.entries.map entryTotal).sum % 2 ^ 64

/-- Write a fatbinary (`FatBinary::write`): container header then the entry
chunks in order. -/
def FatBinary.write (c : FatBinary) : List Nat :=
  leBytes 4 FAT_BINARY_MAGIC ++ leBytes 2 1 ++ leBytes 2 16 ++
  leBytes 8 (totalSize c) ++ (c.entries.map entryBytes).flatten

/- ### The older library iteration (`src/src/lib.rs`)

This iteration is the only one defining the `InvalidOffset` error. Its entry
header has the same 64-byte layout (fields `obj_name_offset` / `obj_name_len`
there correspond to `identifier_offset` / `identifier_len` here), so
`FatBinaryEntryHeader` and `parseEntryHeaderChunk` are reused. Its entry type
has no identifier field. Its reader is purely sequential with
`SeekFrom::Current` relative seeks; a `usize` subtraction underflow in a seek
argument (a panic or an out-of-range seek, depending on build profile) is
modelled as `ioErr`. -/

/-- An entry of the older iteration (`FatBinaryEntry` of `src/src/lib.rs`). -/
structure FatBinaryEntryOld where
  entry_header : FatBinaryEntryHeader
  ptxas_options : Option (List Nat)
  payload : List Nat
deriving DecidableEq, Repr

/-- A fatbinary of the older iteration. -/
structure FatBinaryOld where
  entries : List FatBinaryEntryOld
deriving DecidableEq, Repr

/-- The entry loop of the older `FatBinary::read` (`src/src/lib.rs` lines
386-440). The `InvalidOffset` check runs only under
`entry_header.header_size > 64`. -/
def Old.readEntries (bytes : List Nat) (fuel size pos current_size : Nat) :
    Except FatBinaryError (List FatBinaryEntryOld × Nat) :=
  if current_size < size then
    match fuel with
    | 0 => .error .diverge
    | fuel + 1 => do
      let chunk ← orErr (readBytes? bytes pos 64) .binread
      let entry_header ← orErr (parseEntryHeaderChunk chunk) .binread
      let pos := pos + 64
      let (ptxas_options, pos) ←
        if entry_header.header_size > 64 then
          if entry_header.options_offset ≠ 0x40 then
            throw (.invalidOffset 0x40 entry_header.options_offset)
          else do
            let ptxas_options_offset ← orErr (readLE? bytes pos 4) .binread
            let ptxas_options_size ← orErr (readLE? bytes (pos + 4) 4) .binread
            let pos := pos + 8
            let (opt, pos) ←
              if ptxas_options_offset ≠ 0 then
                -- seek(Current(ptxas_options_offset - 64 - 4 - 4))
                if ptxas_options_offset < 72 then throw .ioErr
                else do
                  let pos := pos + (ptxas_options_offset - 72)
                  let b ← orErr (readBytes? bytes pos ptxas_options_size) .ioErr
                  if utf8Valid b then pure (some b, pos + ptxas_options_size)
                  else throw .fromUtf8
              else pure (none, pos)
            -- seek(Current(header_size - 64 - 4 - 4 - ptxas_options_size))
            if entry_header.header_size < 72 + ptxas_options_size then
              throw .ioErr
            else
              pure (opt, pos + (entry_header.header_size -
                (72 + ptxas_options_size)))
        else pure (none, pos)
      let current_size := current_size + entry_header.header_size
      let payload ← orErr (readBytes? bytes pos entry_header.size) .ioErr
      let pos := pos + entry_header.size
      let current_size := current_size + entry_header.size
      let (rest, final) ← Old.readEntries bytes fuel size pos current_size
      pure (⟨entry_header, ptxas_options, payload⟩ :: rest, final)
  else .ok ([], current_size)

/-- Read a fatbinary with the older iteration's `FatBinary::read`; the header
validation is identical to the current crate's. -/
def Old.read (bytes : List Nat) : Except FatBinaryError FatBinaryOld := do
  let header ← orErr (parseContainerHeader bytes) .binread
  if header.magic ≠ FAT_BINARY_MAGIC then
    throw (.invalidMagic FAT_BINARY_MAGIC header.magic)
  else if header.version ≠ 1 then
    throw (.invalidVersion 1 header.version)
  else if header.header_size ≠ 16 then
    throw (.invalidHeaderSize 16 header.header_size)
  else do
    let (entries, _) ← Old.readEntries bytes (header.size + 1) header.size 16 0
    pure ⟨entries⟩

/- ### Spec-side decompressor

`specDecompress` is transcribed from the SPECIFICATION's description of the
token stream (spec §4.3), to be compared with the source-transcribed
`decompress`: control byte with high nibble `L = (c >>> 4) &&& 0xF` literal
count and low nibble `m = c &&& 0xF` encoding match length `m + 4`; length
extension summing consumed bytes until one below `0xFF`; literal copy; halt
on exhaustion; little-endian 16-bit back offset; match extension when the
raw nibble is `0xF`; match copy where output byte `i` is
`output[len0 - back_offset + i]` with `len0` fixed at the start of the copy.
Out-of-range accesses (including a back offset exceeding the produced
output, where the length subtraction fails) yield `none` as in the source
model. -/

/-- Spec §4.3 length extension: sum consumed bytes into the accumulator until
a byte below `0xFF` is consumed. -/
def specExtend (c : List Nat) (pos acc : Nat) : Option (Nat × Nat) :=
  if h : pos < c.length then
    let b := c.get ⟨pos, h⟩
    if b = 0xff then specExtend c (pos + 1) (acc + b)
    else some (acc + b, pos + 1)
  else none
termination_by c.length - pos
decreasing_by omega

/-- Spec §4.3 match copy: append `count` bytes, byte `i` being
`output[len0 - back_offset + i]` against the growing output, `len0` fixed. -/
def specMatchAppend (out : List Nat) (len0 back_offset i : Nat) :
    Nat → Option (List Nat)
  | 0 => some out
  | count + 1 =>
    match out.get? (len0 - back_offset + i) with
    | none => none
    | some b => specMatchAppend (out ++ [b]) len0 back_offset (i + 1) count

/-- Spec §4.3 token loop. -/
def specLoop (c : List Nat) : Nat → Nat → List Nat → Option (List Nat)
  | fuel, pos, out =>
    if pos < c.length then
      match fuel with
      | 0 => none
      | fuel + 1 =>
        match c.get? pos with
        | none => none
        | some ctrl =>
          let lit0 := (ctrl >>> 4) &&& 0xf
          let m := ctrl &&& 0xf
          match
            (if lit0 = 0xf then specExtend c (pos + 1) lit0
             else some (lit0, pos + 1)) with
          | none => none
          | some (lit, litStart) =>
            if litStart + lit ≤ c.length then
              let out := out ++ (c.drop litStart).take lit
              let p := litStart + lit
              if p ≥ c.length then some out
              else
                match c.get? p, c.get? (p + 1) with
                | some lo, some hi =>
                  let back_offset := lo + 256 * hi
                  match
                    (if m = 0xf then specExtend c (p + 2) (4 + m)
                     else some (4 + m, p + 2)) with
                  | none => none
                  | some (match_len, q) =>
                    if back_offset ≤ out.length then
                      match specMatchAppend out out.length back_offset 0 match_len with
                      | none => none
                      | some out => specLoop c fuel q out
                    else none
                | _, _ => none
            else none
    else some out

/-- Spec §4.3 decompressor. -/
def specDecompress (c : List Nat) : Option (List Nat) :=
  specLoop c (c.length + 1) 0 []

/- ### Auxiliary instances and accessors -/

deriving instance DecidableEq for Except

/-- Check if compiled for 64 bit (`FatBinaryEntry::is_64bit`). -/
def FatBinaryEntry.is64bit (e : FatBinaryEntry) : Bool :=
  e.entry_header.flags &&& FATBINARY_FLAG_COMPILE_SIZE_64BIT ≠ 0

/- ### Claim C9 -/

/-- Claim C9: writing a container holding zero entries produces exactly the
16 bytes `50 ED 55 BA 01 00 10 00 00 00 00 00 00 00 00 00`, and reading
those 16 bytes back yields a container with zero entries. -/
theorem claim_C9 :
    FatBinary.write ⟨[]⟩ =
      [0x50, 0xED, 0x55, 0xBA, 0x01, 0x00, 0x10, 0x00,
       0x00, 0x00, 0x00, 0x00, 0x00, 0x00, 0x00, 0x00] ∧
    FatBinary.read
      [0x50, 0xED, 0x55, 0xBA, 0x01, 0x00, 0x10, 0x00,
       0x00, 0x00, 0x00, 0x00, 0x00, 0x00, 0x00, 0x00] = .ok ⟨[]⟩ := by
  exact ⟨by decide, by decide⟩

/- ### Claim C8 -/

/-- Claim C8: `new(is_elf, sm_arch, major, minor, is_64bit, payload)`
synthesizes an entry with kind 2 when `is_elf` and 1 otherwise,
`reserved1 = 0x0101`, `header_size = 64`, `options_offset = 0x40`, `size`
equal to the payload length, `compressed_size`, `identifier_offset`,
`identifier_len`, `zero`, and `decompressed_size` all zero, and the 64-bit
flag set exactly when `is_64bit`; `new_auto(sm_arch, payload)` returns an
ELF entry if and only if the payload begins with `0x7F 0x45 0x4C 0x46`,
with `major = minor = 0` and the 64-bit flag set. -/
theorem claim_C8 (is_elf : Bool) (sm_arch major minor : Nat) (is_64bit : Bool)
    (payload : List Nat) :
    (FatBinaryEntry.new is_elf sm_arch major minor is_64bit payload).entry_header =
      { kind := if is_elf then 2 else 1
        unknown1 := 0x0101
        header_size := 64
        size := payload.length
        compressed_size := 0
        options_offset := 0x40
        minor := minor
        major := major
        arch := sm_arch
        identifier_offset := 0
        identifier_len := 0
        flags := if is_64bit then 1 else 0
        zero := 0
        decompressed_size := 0 } ∧
    ((FatBinaryEntry.new is_elf sm_arch major minor is_64bit payload).is64bit =
      is_64bit) ∧
    ((FatBinaryEntry.newAuto sm_arch payload).containsElf = true ↔
      payload.take 4 = [0x7f, 0x45, 0x4c, 0x46]) ∧
    (FatBinaryEntry.newAuto sm_arch payload).entry_header.major = 0 ∧
    (FatBinaryEntry.newAuto sm_arch payload).entry_header.minor = 0 ∧
    (FatBinaryEntry.newAuto sm_arch payload).is64bit = true := by
  refine ⟨rfl, ?_, ?_, rfl, rfl, by
    simp [FatBinaryEntry.newAuto, FatBinaryEntry.new, FatBinaryEntry.is64bit,
      FATBINARY_FLAG_COMPILE_SIZE_64BIT]⟩
  · cases is_64bit <;>
      simp [FatBinaryEntry.new, FatBinaryEntry.is64bit,
        FATBINARY_FLAG_COMPILE_SIZE_64BIT]
  · by_cases h : payload.take 4 = [0x7f, 0x45, 0x4c, 0x46] <;>
      simp [FatBinaryEntry.newAuto, FatBinaryEntry.containsElf,
        FatBinaryEntry.new, elfMagic, h]

/- ### Claim C4 -/

/-- Claim C4: for every entry whose compressed payload decompresses to
exactly the declared `decompressed_size` bytes, the in-place decompress
operation replaces the payload with the decompressed bytes, clears the
compressed flag, sets the `size` field to the former `decompressed_size`,
and zeros the `compressed_size` and `decompressed_size` fields; on an entry
that is not compressed it changes nothing; and applying the operation twice
yields the same entry state as applying it once. -/
theorem claim_C4 :
    (∀ (e : FatBinaryEntry) (d : List Nat),
      e.isCompressed = true →
      e.entry_header.compressed_size ≤ e.payload.length →
      decompress (e.payload.take e.entry_header.compressed_size) = some d →
      d.length = e.entry_header.decompressed_size →
      e.decompressInPlace = some
        { e with
          payload := d
          entry_header :=
            { e.entry_header with
              flags := e.entry_header.flags &&&
                (2 ^ 64 - 1 - FATBINARY_FLAG_COMPRESSED)
              size := e.entry_header.decompressed_size
              compressed_size := 0
              decompressed_size := 0 } }) ∧
    (∀ e e' : FatBinaryEntry, e.decompressInPlace = some e' →
      e.isCompressed = true → e'.isCompressed = false) ∧
    (∀ e : FatBinaryEntry, e.isCompressed = false →
      e.decompressInPlace = some e) ∧
    (∀ e e' : FatBinaryEntry, e.decompressInPlace = some e' →
      e'.decompressInPlace = some e') := by
  have hmask : ∀ f : Nat,
      (f &&& (2 ^ 64 - 1 - FATBINARY_FLAG_COMPRESSED)) &&&
        FATBINARY_FLAG_COMPRESSED = 0 := by
    intro f
    rw [Nat.and_assoc]
    have : (2 ^ 64 - 1 - FATBINARY_FLAG_COMPRESSED) &&&
        FATBINARY_FLAG_COMPRESSED = 0 := by decide
    rw [this, Nat.and_zero]
  have clear : ∀ e e' : FatBinaryEntry, e.decompressInPlace = some e' →
      e.isCompressed = true → e'.isCompressed = false := by
    intro e e' h hc
    by_cases hle : e.entry_header.compressed_size ≤ e.payload.length
    · cases hd : decompress (e.payload.take e.entry_header.compressed_size) with
      | none => simp [FatBinaryEntry.decompressInPlace, hc, hle, hd] at h
      | some p =>
        by_cases hlen : p.length = e.entry_header.decompressed_size
        · simp [FatBinaryEntry.decompressInPlace, hc, hle, hd, hlen] at h
          subst h
          simp [FatBinaryEntry.isCompressed]
          exact hmask _
        · simp [FatBinaryEntry.decompressInPlace, hc, hle, hd, hlen] at h
    · simp [FatBinaryEntry.decompressInPlace, hc, hle] at h
  have noop : ∀ e : FatBinaryEntry, e.isCompressed = false →
      e.decompressInPlace = some e := by
    intro e hc
    rw [FatBinaryEntry.decompressInPlace, if_neg (by simp [hc])]
  refine ⟨?_, clear, noop, ?_⟩
  · intro e d hc hle hdec hlen
    simp [FatBinaryEntry.decompressInPlace, hc, hle, hdec, hlen]
  · intro e e' h
    by_cases hc : e.isCompressed = true
    · exact noop e' (clear e e' h hc)
    · have hc' : e.isCompressed = false := by
        cases hcc : e.isCompressed
        · rfl
        · exact absurd hcc hc
      rw [noop e hc'] at h
      cases h
      exact noop e hc'

/-- Witness for claim C4: a concrete compressed entry (payload
`30 41 42 43`, `compressed_size = 4`, `decompressed_size = 3`, flags
`0x2001`) is decompressed in place to the literal payload `41 42 43` with
the compressed flag cleared and the size fields rewritten. -/
theorem claim_C4_witness :
    (⟨⟨1, 257, 64, 4, 4, 64, 0, 0, 80, 0, 0, 0x2001, 0, 3⟩, none, none,
      [0x30, 65, 66, 67]⟩ : FatBinaryEntry).decompressInPlace =
      some ⟨⟨1, 257, 64, 3, 0, 64, 0, 0, 80, 0, 0, 1, 0, 0⟩, none, none,
        [65, 66, 67]⟩ := by
  have h := claim_C4.1
    (⟨⟨1, 257, 64, 4, 4, 64, 0, 0, 80, 0, 0, 0x2001, 0, 3⟩, none, none,
      [0x30, 65, 66, 67]⟩ : FatBinaryEntry)
    [65, 66, 67] (by decide) (by decide) (by decide) (by decide)
  simpa using h

/- ### Claim C7 -/

/-- Claim C7: container read validates magic, then version, then
header_size, returning for the first failing constant a structural error
carrying both the expected and observed value, without reading any entry
bytes (the error depends only on the 16 header bytes, whatever follows):
magic ≠ 0xBA55ED50 yields `InvalidMagic` (input beginning `DE AD BE EF`
yields `got = 0xEFBEADDE` with `expected = 0xBA55ED50`), version ≠ 1 yields
`InvalidVersion`, and header_size ≠ 16 yields `InvalidHeaderSize`. -/
theorem claim_C7 :
    (∀ (bytes : List Nat) (h : FatBinaryHeader),
      parseContainerHeader bytes = some h →
      (h.magic ≠ FAT_BINARY_MAGIC →
        FatBinary.read bytes = .error (.invalidMagic FAT_BINARY_MAGIC h.magic)) ∧
      (h.magic = FAT_BINARY_MAGIC → h.version ≠ 1 →
        FatBinary.read bytes = .error (.invalidVersion 1 h.version)) ∧
      (h.magic = FAT_BINARY_MAGIC → h.version = 1 → h.header_size ≠ 16 →
        FatBinary.read bytes = .error (.invalidHeaderSize 16 h.header_size))) ∧
    (∀ rest : List Nat, 12 ≤ rest.length →
      FatBinary.read (0xDE :: 0xAD :: 0xBE :: 0xEF :: rest) =
        .error (.invalidMagic 0xBA55ED50 0xEFBEADDE)) := by
  constructor
  · intro bytes h hparse
    refine ⟨?_, ?_, ?_⟩
    · intro hm
      simp [FatBinary.read, orErr, hparse, hm, Bind.bind, Except.bind, throw,
        throwThe, MonadExceptOf.throw]
    · intro hm hv
      simp [FatBinary.read, orErr, hparse, hm, hv, FAT_BINARY_MAGIC,
        Bind.bind, Except.bind, throw, throwThe, MonadExceptOf.throw]
    · intro hm hv hh
      simp [FatBinary.read, orErr, hparse, hm, hv, hh, FAT_BINARY_MAGIC,
        Bind.bind, Except.bind, throw, throwThe, MonadExceptOf.throw]
  · intro rest hr
    have h1 : (2:Nat) ≤ rest.length := by omega
    have h2 : (2:Nat) ≤ rest.length - 2 := by omega
    have h3 : (8:Nat) ≤ rest.length - 4 := by omega
    simp [FatBinary.read, parseContainerHeader, parseU, orErr, h1, h2, h3,
      bytesToNatLE, FAT_BINARY_MAGIC, Bind.bind, Except.bind, Option.bind,
      throw, throwThe, MonadExceptOf.throw]

/-- Witness for claim C7: concrete header corruptions produce the three
structural errors; in particular the `DE AD BE EF` stream. -/
theorem claim_C7_witness :
    FatBinary.read (0xDE :: 0xAD :: 0xBE :: 0xEF :: List.replicate 12 0) =
      .error (.invalidMagic 0xBA55ED50 0xEFBEADDE) ∧
    FatBinary.read
      (leBytes 4 0xBA55ED50 ++ leBytes 2 7 ++ leBytes 2 16 ++ leBytes 8 0) =
      .error (.invalidVersion 1 7) ∧
    FatBinary.read
      (leBytes 4 0xBA55ED50 ++ leBytes 2 1 ++ leBytes 2 20 ++ leBytes 8 0) =
      .error (.invalidHeaderSize 16 20) := by
  refine ⟨claim_C7.2 (List.replicate 12 0) (by simp), ?_, ?_⟩
  · exact (claim_C7.1
      (leBytes 4 0xBA55ED50 ++ leBytes 2 7 ++ leBytes 2 16 ++ leBytes 8 0)
      ⟨0xBA55ED50, 7, 16, 0⟩ (by decide)).2.1 rfl (by decide)
  · exact (claim_C7.1
      (leBytes 4 0xBA55ED50 ++ leBytes 2 1 ++ leBytes 2 20 ++ leBytes 8 0)
      ⟨0xBA55ED50, 1, 20, 0⟩ (by decide)).2.2 rfl rfl (by decide)

/- ### Claim C2 -/

theorem entryHeaderBytes_length (h : FatBinaryEntryHeader) :
    (entryHeaderBytes h).length = 64 := by
  simp [entryHeaderBytes, leBytes_length]

theorem readLE?_leBytes (w n : Nat) (rest : List Nat) :
    readLE? (leBytes w n ++ rest) 0 w = some (n % 256 ^ w) := by
  simp [readLE?, readBytes?, leBytes_length, bytesToNatLE_leBytes]

/-- Claim C2 counterexample: for the synthesized entry
`new(false, 80, 0, 0, true, [])` — no identifier, no ptxas options, so
`P = I = 0` — the writer's sizing pass produces `ptxas_options_offset = 72`
and `identifier_offset = 72`, and the emitted bytes carry those values (the
options descriptor at entry offset 64 holds 72, the header's
`identifier_offset` field at offset 32 holds 72), not the 0 the claim
requires for absent options and identifier. -/
theorem claim_C2_counterexample :
    (entrySizing (FatBinaryEntry.new false 80 0 0 true [])).ptxas_options_len
      = 0 ∧
    (entrySizing (FatBinaryEntry.new false 80 0 0 true [])).identifier_len
      = 0 ∧
    (entrySizing (FatBinaryEntry.new false 80 0 0 true [])).ptxas_options_offset
      ≠ 0 ∧
    (entrySizing (FatBinaryEntry.new false 80 0 0 true [])).identifier_offset
      ≠ 0 ∧
    readLE? (entryBytes (FatBinaryEntry.new false 80 0 0 true [])) 64 4
      = some 72 ∧
    readLE? (entryBytes (FatBinaryEntry.new false 80 0 0 true [])) 32 4
      = some 72 := by
  decide

/-- Claim C2, amended: for every entry the writer emits whose stored
`header_size` is 64 (as for all synthesized entries; the sizing pass bases
itself on the stored value, not the constant 64), with `P` the byte length
of its ptxas options (0 if absent) and `I` that of its identifier (0 if
absent), the written header has `header_size = 64 + 8 + P + I`,
`identifier_len = I`, and — unconditionally, whether or not the option
strings are present — `identifier_offset = 72 + P`,
`ptxas_options_offset = 72` and `ptxas_options_size = P`; `options_offset`
is the stored value, which the writer does not recompute. -/
theorem claim_C2_amended (e : FatBinaryEntry)
    (h64 : e.entry_header.header_size = 64)
    (hbound : 72 + (e.ptxas_options.getD []).length +
      (e.identifier.getD []).length < 2 ^ 32) :
    entrySizing e =
      ⟨(e.identifier.getD []).length, (e.ptxas_options.getD []).length,
        72 + (e.ptxas_options.getD []).length, 72,
        72 + (e.ptxas_options.getD []).length +
          (e.identifier.getD []).length⟩ ∧
    writtenEntryHeader e =
      { e.entry_header with
        header_size := 72 + (e.ptxas_options.getD []).length +
          (e.identifier.getD []).length
        identifier_offset := 72 + (e.ptxas_options.getD []).length
        identifier_len := (e.identifier.getD []).length } ∧
    readLE? (entryBytes e) 64 4 = some 72 ∧
    readLE? (entryBytes e) 68 4 = some (e.ptxas_options.getD []).length := by
  have pow32 : (2:Nat) ^ 32 = 4294967296 := by norm_num
  have h2564 : (256:Nat) ^ 4 = 4294967296 := by norm_num
  rw [pow32] at hbound
  have hsz : entrySizing e =
      ⟨(e.identifier.getD []).length, (e.ptxas_options.getD []).length,
        72 + (e.ptxas_options.getD []).length, 72,
        72 + (e.ptxas_options.getD []).length +
          (e.identifier.getD []).length⟩ := by
    simp only [entrySizing, h64, EntrySizing.mk.injEq, pow32]
    norm_num
    omega
  refine ⟨hsz, ?_, ?_, ?_⟩
  · simp only [writtenEntryHeader, hsz, pow32]
    rw [Nat.mod_eq_of_lt (by omega)]
  · rw [entryBytes, hsz]
    simp only [List.append_assoc]
    rw [readLE?_append_at _ _ 64 0 4 (by simp [entryHeaderBytes_length]),
      readLE?_leBytes]
    norm_num
  · rw [entryBytes, hsz]
    simp only [List.append_assoc]
    rw [readLE?_append_at _ _ 68 4 4 (by simp [entryHeaderBytes_length]),
      readLE?_append_at _ _ 4 0 4 (by simp [leBytes_length]),
      readLE?_leBytes, h2564, Nat.mod_eq_of_lt (by omega)]

/-- Witness for claim C2 (amended): a PTX entry with ptxas options `-O`
(2 bytes) and identifier `a.ptx` (5 bytes) sizes to
`header_size = 72 + 2 + 5 = 79` with `ptxas_options_offset = 72` and
`identifier_offset = 74`. -/
theorem claim_C2_amended_witness :
    entrySizing
      (((FatBinaryEntry.new false 80 8 3 true [9]).setIdentifier
        [97, 46, 112, 116, 120]).setPtxasOptions [45, 79]) =
      ⟨5, 2, 74, 72, 79⟩ := by
  have h := claim_C2_amended
    (((FatBinaryEntry.new false 80 8 3 true [9]).setIdentifier
      [97, 46, 112, 116, 120]).setPtxasOptions [45, 79])
    (by decide) (by decide)
  exact h.1

/- ### Claim C3 -/

/-- Claim C3 counterexample: the `InvalidOffset` check exists only in the
older iteration, and there it is gated on `header_size > 64`, not on the
`options_offset` value: a stream whose single entry has `header_size = 64`
and `options_offset = 1` (nonzero and ≠ 0x40) is read successfully instead
of failing with `InvalidOffset`. (The current crate does not perform the
check at all.) -/
theorem claim_C3_counterexample :
    Old.read
      (leBytes 4 0xBA55ED50 ++ leBytes 2 1 ++ leBytes 2 16 ++ leBytes 8 64 ++
        entryHeaderBytes ⟨0, 0, 64, 0, 0, 1, 0, 0, 0, 0, 0, 0, 0, 0⟩) =
      .ok ⟨[⟨⟨0, 0, 64, 0, 0, 1, 0, 0, 0, 0, 0, 0, 0, 0⟩, none, []⟩]⟩ := by
  decide

/-- Claim C3, amended: in the older iteration (the one with the
`InvalidOffset` error), reading an entry whose `header_size` field exceeds
64 and whose `options_offset` is not 0x40 — including `options_offset = 0` —
fails with `InvalidOffset` carrying expected value 0x40 and the observed
`options_offset`; an entry with `header_size ≤ 64` is never subjected to the
check, whatever its `options_offset`. -/
theorem claim_C3_amended (bytes : List Nat) (h : FatBinaryHeader)
    (eh : FatBinaryEntryHeader)
    (hparse : parseContainerHeader bytes = some h)
    (hmagic : h.magic = FAT_BINARY_MAGIC) (hver : h.version = 1)
    (hhs : h.header_size = 16) (hsz : 0 < h.size)
    (hchunk : (readBytes? bytes 16 64).bind parseEntryHeaderChunk = some eh)
    (hgt : 64 < eh.header_size) (hne : eh.options_offset ≠ 0x40) :
    Old.read bytes = .error (.invalidOffset 0x40 eh.options_offset) := by
  obtain ⟨chunk, hc1, hc2⟩ := Option.bind_eq_some.mp hchunk
  have hstep : Old.readEntries bytes (h.size + 1) h.size 16 0 =
      .error (.invalidOffset 0x40 eh.options_offset) := by
    rw [Old.readEntries.eq_def]
    simp [orErr, hc1, hc2, hgt, hne, Bind.bind, Except.bind, throw, throwThe,
      MonadExceptOf.throw, hsz]
  rw [Old.read]
  simp [orErr, hparse, hmagic, hver, hhs, hstep, Bind.bind, Except.bind,
    throw, throwThe, MonadExceptOf.throw, FAT_BINARY_MAGIC]

/-- Witness for claim C3 (amended): a single-entry stream with
`header_size = 72` and `options_offset = 5` fails with
`InvalidOffset { expected: 0x40, got: 5 }` under the older reader. -/
theorem claim_C3_amended_witness :
    Old.read
      (leBytes 4 0xBA55ED50 ++ leBytes 2 1 ++ leBytes 2 16 ++ leBytes 8 72 ++
        entryHeaderBytes ⟨0, 0, 72, 0, 0, 5, 0, 0, 0, 0, 0, 0, 0, 0⟩) =
      .error (.invalidOffset 0x40 5) := by
  exact claim_C3_amended _ ⟨0xBA55ED50, 1, 16, 72⟩
    ⟨0, 0, 72, 0, 0, 5, 0, 0, 0, 0, 0, 0, 0, 0⟩
    (by decide) rfl rfl rfl (by decide) (by decide) (by decide) (by decide)

/- ### Loop invariant of the entry loop (shared by C6 and C10) -/

theorem exceptBind_ok {ε α β : Type} {x : Except ε α} {f : α → Except ε β}
    {b : β} (h : x >>= f = .ok b) : ∃ a, x = .ok a ∧ f a = .ok b := by
  cases x with
  | error e => simp [Bind.bind, Except.bind] at h
  | ok a => exact ⟨a, rfl, by simpa [Bind.bind, Except.bind] using h⟩

theorem orErr_ok {α : Type} {o : Option α} {e : FatBinaryError} {a : α}
    (h : orErr o e = .ok a) : o = some a := by
  cases o with
  | none => simp [orErr] at h
  | some x => simpa [orErr] using h

theorem readBytes?_length {l : List Nat} {pos w : Nat} {p : List Nat}
    (h : readBytes? l pos w = some p) : p.length = w := by
  rw [readBytes?] at h
  split at h
  · cases h
    simp [List.length_take, List.length_drop]
    omega
  · cases h

/-- Invariant of the entry loop on success: the final consumed counter adds
`header_size + size` for each parsed entry, it is at least the container
`size` bound (the loop exits only once the counter has reached or passed
it — overshoot included), and every entry's payload holds exactly
`entry_header.size` bytes. -/
theorem readEntries_ok_inv (bytes : List Nat) :
    ∀ (fuel size pos cur : Nat) (es : List FatBinaryEntry) (fin : Nat),
      readEntries bytes fuel size pos cur = .ok (es, fin) →
      fin = cur + (es.map (fun e => e.entry_header.header_size +
        e.entry_header.size)).sum ∧
      size ≤ fin ∧
      ∀ e ∈ es, e.payload.length = e.entry_header.size := by
  intro fuel
  induction fuel with
  | zero =>
    intro size pos cur es fin h
    rw [readEntries.eq_def] at h
    by_cases hcur : cur < size
    · rw [if_pos hcur] at h
      simp at h
    · rw [if_neg hcur] at h
      cases h
      refine ⟨by simp, by omega, by simp⟩
  | succ fuel ih =>
    intro size pos cur es fin h
    rw [readEntries.eq_def] at h
    by_cases hcur : cur < size
    · rw [if_pos hcur] at h
      obtain ⟨chunk, hchunk, h⟩ := exceptBind_ok h
      obtain ⟨eh, heh, h⟩ := exceptBind_ok h
      obtain ⟨po, hpo, h⟩ := exceptBind_ok h
      obtain ⟨ident, hident, h⟩ := exceptBind_ok h
      obtain ⟨payload, hpayload, h⟩ := exceptBind_ok h
      obtain ⟨⟨rest, final⟩, hrec, h⟩ := exceptBind_ok h
      simp only [pure, Except.pure, Except.ok.injEq, Prod.mk.injEq] at h
      obtain ⟨hes, hfin⟩ := h
      subst hes hfin
      obtain ⟨hsum, hle, hinv⟩ := ih size _ _ rest final hrec
      have hplen : payload.length = eh.size :=
        readBytes?_length (orErr_ok hpayload)
      refine ⟨by simp [hsum]; omega, by omega, ?_⟩
      intro e he
      rcases List.mem_cons.mp he with rfl | hmem
      · exact hplen
      · exact hinv e hmem
    · rw [if_neg hcur] at h
      cases h
      refine ⟨by simp, by omega, by simp⟩

/- ### Claim C6 -/

/-- Claim C6, amended: the container read loop runs while the consumed-byte
counter is below the container header's `size`, adding each entry's
`header_size` and `size` to the counter and reading a payload of exactly
`size` bytes; on success the final counter is at least the container size
but need not equal it: an entry that overshoots the declared size is
silently accepted (no structural error is raised for inexact termination),
as the concrete stream whose container `size` is 1 followed by a 64-byte
entry shows. -/
theorem claim_C6 :
    (∀ (bytes : List Nat) (fuel size pos cur : Nat)
      (es : List FatBinaryEntry) (fin : Nat),
      readEntries bytes fuel size pos cur = .ok (es, fin) →
      fin = cur + (es.map (fun e => e.entry_header.header_size +
        e.entry_header.size)).sum ∧
      size ≤ fin ∧
      ∀ e ∈ es, e.payload.length = e.entry_header.size) ∧
    FatBinary.read
      (leBytes 4 0xBA55ED50 ++ leBytes 2 1 ++ leBytes 2 16 ++ leBytes 8 1 ++
        entryHeaderBytes ⟨0, 0, 64, 0, 0, 0, 0, 0, 0, 0, 0, 0, 0, 0⟩) =
      .ok ⟨[⟨⟨0, 0, 64, 0, 0, 0, 0, 0, 0, 0, 0, 0, 0, 0⟩, none, none, []⟩]⟩ := by
  constructor
  · intro bytes fuel size pos cur es fin h
    exact readEntries_ok_inv bytes fuel size pos cur es fin h
  · decide

/-- Claim C6 counterexample (to the claim's exact-termination sentence): on
the stream whose container header declares `size = 1` followed by one
64-byte entry, the reader terminates with the counter at 64 ≠ 1 and still
returns the container; no structural error is reported. -/
theorem claim_C6_counterexample :
    readEntries
      (leBytes 4 0xBA55ED50 ++ leBytes 2 1 ++ leBytes 2 16 ++ leBytes 8 1 ++
        entryHeaderBytes ⟨0, 0, 64, 0, 0, 0, 0, 0, 0, 0, 0, 0, 0, 0⟩)
      2 1 16 0 =
      .ok ([⟨⟨0, 0, 64, 0, 0, 0, 0, 0, 0, 0, 0, 0, 0, 0⟩, none, none, []⟩], 64)
      := by
  decide

/-- Witness for claim C6: the loop invariant applied to the concrete
counterexample run, whose final counter 64 strictly exceeds the container
size 1. -/
theorem claim_C6_witness :
    (64 : Nat) = 0 +
      ([(⟨⟨0, 0, 64, 0, 0, 0, 0, 0, 0, 0, 0, 0, 0, 0⟩, none, none, []⟩ :
        FatBinaryEntry)].map (fun e => e.entry_header.header_size +
          e.entry_header.size)).sum ∧
    (1 : Nat) ≤ 64 ∧
    ∀ e ∈ [(⟨⟨0, 0, 64, 0, 0, 0, 0, 0, 0, 0, 0, 0, 0, 0⟩, none, none, []⟩ :
      FatBinaryEntry)], e.payload.length = e.entry_header.size := by
  exact claim_C6.1
    (leBytes 4 0xBA55ED50 ++ leBytes 2 1 ++ leBytes 2 16 ++ leBytes 8 1 ++
      entryHeaderBytes ⟨0, 0, 64, 0, 0, 0, 0, 0, 0, 0, 0, 0, 0, 0⟩)
    2 1 16 0 _ 64 (by decide)

/- ### Claim C10 -/

/-- Claim C10: for every entry produced by the library, the stored payload
buffer's length equals the entry header's `size` field: after `new` and
`new_auto`, after container read, after in-place decompress (given the
invariant held before, covering the not-compressed no-op case), and it is
preserved by `set_identifier` and `set_ptxas_options`, which touch neither
payload nor header. -/
theorem claim_C10 :
    (∀ (is_elf : Bool) (sm_arch major minor : Nat) (is_64bit : Bool)
      (payload : List Nat),
      (FatBinaryEntry.new is_elf sm_arch major minor is_64bit
        payload).payload.length =
      (FatBinaryEntry.new is_elf sm_arch major minor is_64bit
        payload).entry_header.size) ∧
    (∀ (sm_arch : Nat) (payload : List Nat),
      (FatBinaryEntry.newAuto sm_arch payload).payload.length =
      (FatBinaryEntry.newAuto sm_arch payload).entry_header.size) ∧
    (∀ (bytes : List Nat) (fb : FatBinary),
      FatBinary.read bytes = .ok fb →
      ∀ e ∈ fb.entries, e.payload.length = e.entry_header.size) ∧
    (∀ e e' : FatBinaryEntry, e.decompressInPlace = some e' →
      e.payload.length = e.entry_header.size →
      e'.payload.length = e'.entry_header.size) ∧
    (∀ (e : FatBinaryEntry) (s : List Nat),
      (e.setIdentifier s).payload = e.payload ∧
      (e.setIdentifier s).entry_header = e.entry_header ∧
      (e.setPtxasOptions s).payload = e.payload ∧
      (e.setPtxasOptions s).entry_header = e.entry_header) := by
  refine ⟨fun _ _ _ _ _ _ => rfl, fun _ _ => rfl, ?_, ?_, fun _ _ => ⟨rfl, rfl, rfl, rfl⟩⟩
  · intro bytes fb h
    rw [FatBinary.read] at h
    obtain ⟨header, hh, h⟩ := exceptBind_ok h
    by_cases hm : header.magic = FAT_BINARY_MAGIC
    · rw [if_neg (by simp [hm])] at h
      by_cases hv : header.version = 1
      · rw [if_neg (by simp [hv])] at h
        by_cases hs : header.header_size = 16
        · rw [if_neg (by simp [hs])] at h
          obtain ⟨⟨entries, fin⟩, hre, h⟩ := exceptBind_ok h
          simp only [pure, Except.pure, Except.ok.injEq] at h
          subst h
          exact (readEntries_ok_inv bytes _ _ _ _ entries fin hre).2.2
        · rw [if_pos hs] at h
          simp [throw, throwThe, MonadExceptOf.throw] at h
      · rw [if_pos hv] at h
        simp [throw, throwThe, MonadExceptOf.throw] at h
    · rw [if_pos hm] at h
      simp [throw, throwThe, MonadExceptOf.throw] at h
  · intro e e' h hinv
    by_cases hc : e.isCompressed = true
    · by_cases hle : e.entry_header.compressed_size ≤ e.payload.length
      · cases hd : decompress (e.payload.take e.entry_header.compressed_size) with
        | none => simp [FatBinaryEntry.decompressInPlace, hc, hle, hd] at h
        | some p =>
          by_cases hlen : p.length = e.entry_header.decompressed_size
          · simp [FatBinaryEntry.decompressInPlace, hc, hle, hd, hlen] at h
            subst h
            simpa using hlen
          · simp [FatBinaryEntry.decompressInPlace, hc, hle, hd, hlen] at h
      · simp [FatBinaryEntry.decompressInPlace, hc, hle] at h
    · have hc' : e.isCompressed = false := by
        cases hcc : e.isCompressed
        · rfl
        · exact absurd hcc hc
      rw [FatBinaryEntry.decompressInPlace, if_neg (by simp [hc'])] at h
      cases h
      exact hinv

/-- Witness for claim C10: the invariant evaluated on the concrete container
read back from the 80-byte single-entry stream. -/
theorem claim_C10_witness :
    ∀ e ∈ (FatBinary.mk [⟨⟨0, 0, 64, 0, 0, 0, 0, 0, 0, 0, 0, 0, 0, 0⟩,
      none, none, []⟩]).entries,
      e.payload.length = e.entry_header.size := by
  exact claim_C10.2.2.1
    (leBytes 4 0xBA55ED50 ++ leBytes 2 1 ++ leBytes 2 16 ++ leBytes 8 64 ++
      entryHeaderBytes ⟨0, 0, 64, 0, 0, 0, 0, 0, 0, 0, 0, 0, 0, 0⟩)
    _ (by decide)

/- ### Claim C5 -/

theorem specExtend_eq_extendLength (c : List Nat) :
    ∀ (k pos acc : Nat), c.length - pos ≤ k →
      specExtend c pos acc = extendLength c pos acc := by
  intro k
  induction k with
  | zero =>
    intro pos acc hk
    rw [specExtend.eq_def, extendLength.eq_def]
    rw [dif_neg (by omega), dif_neg (by omega)]
  | succ k ihk =>
    intro pos acc hk
    rw [specExtend.eq_def, extendLength.eq_def]
    by_cases hpos : pos < c.length
    · rw [dif_pos hpos, dif_pos hpos]
      by_cases hx : c.get ⟨pos, hpos⟩ = 0xff
      · simp only [hx, if_pos rfl]
        exact ihk (pos + 1) _ (by omega)
      · simp only [if_neg hx]
    · rw [dif_neg hpos, dif_neg hpos]

theorem specMatchAppend_eq_matchCopy (len0 bo : Nat) :
    ∀ (count : Nat) (out : List Nat) (i : Nat),
      specMatchAppend out len0 bo i count = matchCopy out (len0 - bo + i) count := by
  intro count
  induction count with
  | zero => intro out i; rfl
  | succ count ih =>
    intro out i
    rw [specMatchAppend, matchCopy]
    cases hget : out.get? (len0 - bo + i) with
    | none => simp [hget]
    | some b =>
      simp only [hget]
      rw [ih (out ++ [b]) (i + 1)]
      rfl

theorem nibbleHigh (b : Nat) : (b >>> 4) &&& 0xf = (b &&& 0xf0) >>> 4 := by
  have key : ∀ i, Nat.testBit 15 i = Nat.testBit 240 (4 + i) := by
    intro i
    rcases lt_or_ge i 4 with hi | hi
    · interval_cases i <;> decide
    · have h1 : Nat.testBit 15 i = false :=
        Nat.testBit_lt_two_pow (lt_of_lt_of_le
          (show (15:Nat) < 2 ^ 4 by norm_num)
          (Nat.pow_le_pow_right (by norm_num) hi))
      have h2 : Nat.testBit 240 (4 + i) = false :=
        Nat.testBit_lt_two_pow (lt_of_lt_of_le
          (show (240:Nat) < 2 ^ 8 by norm_num)
          (Nat.pow_le_pow_right (by norm_num) (show 8 ≤ 4 + i by omega)))
      rw [h1, h2]
  apply Nat.eq_of_testBit_eq
  intro i
  rw [Nat.testBit_and, Nat.testBit_shiftRight, Nat.testBit_shiftRight,
    Nat.testBit_and, key i]

theorem backOffsetForm (a b : Nat) : a + 256 * b = a + (b <<< 8) := by
  rw [Nat.shiftLeft_eq]
  norm_num [mul_comm]

theorem matchLenCondIff (x : Nat) : (4 + x = 0xf + 4) ↔ x = 0xf := by omega

theorem specExtend_eq (c : List Nat) (pos acc : Nat) :
    specExtend c pos acc = extendLength c pos acc :=
  specExtend_eq_extendLength c c.length pos acc (by omega)

theorem specLoop_eq_decompressLoop (c : List Nat) :
    ∀ (fuel pos : Nat) (out : List Nat),
      specLoop c fuel pos out = decompressLoop c fuel pos out := by
  intro fuel
  induction fuel with
  | zero =>
    intro pos out
    rw [specLoop.eq_def, decompressLoop.eq_def]
  | succ fuel ih =>
    intro pos out
    rw [specLoop.eq_def, decompressLoop.eq_def]
    by_cases hpos : pos < c.length
    · cases hget : c.get? pos with
      | none =>
        rw [List.get?_eq_none] at hget
        omega
      | some b =>
        simp only [hpos, if_true, hget, nibbleHigh, specExtend_eq,
          matchLenCondIff, backOffsetForm, specMatchAppend_eq_matchCopy,
          Nat.add_zero, ih]
    · simp [hpos]

/-- Claim C5: the decompressor consumes tokens as the specification
describes — control byte with high-nibble literal count (0xF-escaped by
summing consumed bytes until one below 0xFF), literal copy, halt on
post-literal exhaustion, little-endian 16-bit back offset, 0xF-escaped
match length with base `M + 4`, and a match copy whose byte `i` is
`output[len0 - back_offset + i]` with `len0` fixed at the start of the copy
(so a match longer than the back offset replicates the tail window): the
source-transcribed `decompress` coincides with the spec-transcribed
`specDecompress` on every input; in particular, for input `0x30 41 42 43`
the output is exactly `41 42 43` (\"ABC\"). -/
theorem claim_C5 :
    (∀ c : List Nat, decompress c = specDecompress c) ∧
    decompress [0x30, 0x41, 0x42, 0x43] = some [0x41, 0x42, 0x43] := by
  constructor
  · intro c
    rw [decompress, specDecompress, specLoop_eq_decompressLoop]
  · decide

/- ### Claim C1 -/

/-- The entry the reader produces for a written in-memory entry: the
header's `header_size`, `identifier_offset` and `identifier_len` come back
as the writer's recomputed values, and the optional strings come back as
`some` of their bytes — the writer always emits the descriptor and both
strings, so an absent string reads back as `some []`, not `none`. -/
def readBackEntry (e : FatBinaryEntry) : FatBinaryEntry where
  entry_header :=
    { e.entry_header with
      header_size := 72 + (e.ptxas_options.getD []).length +
        (e.identifier.getD []).length
      identifier_offset := 72 + (e.ptxas_options.getD []).length
      identifier_len := (e.identifier.getD []).length }
  identifier := some (e.identifier.getD [])
  ptxas_options := some (e.ptxas_options.getD [])
  payload := e.payload

/-- Well-formedness of an in-memory entry, as produced by `new` / `new_auto`
plus `set_identifier` / `set_ptxas_options`: the stored header has
`header_size = 64` and `options_offset = 0x40`, the `size` field equals the
payload length (claim C10's invariant), every header field fits its machine
width, the recomputed header fits `u32`, and the optional strings are valid
UTF-8 (Rust `String`s always are). -/
def InMemWF (e : FatBinaryEntry) : Prop :=
  e.entry_header.header_size = 64 ∧
  e.entry_header.options_offset = 0x40 ∧
  e.entry_header.size = e.payload.length ∧
  e.entry_header.kind < 256 ^ 2 ∧
  e.entry_header.unknown1 < 256 ^ 2 ∧
  e.entry_header.size < 256 ^ 8 ∧
  e.entry_header.compressed_size < 256 ^ 4 ∧
  e.entry_header.minor < 256 ^ 2 ∧
  e.entry_header.major < 256 ^ 2 ∧
  e.entry_header.arch < 256 ^ 4 ∧
  e.entry_header.flags < 256 ^ 8 ∧
  e.entry_header.zero < 256 ^ 8 ∧
  e.entry_header.decompressed_size < 256 ^ 8 ∧
  72 + (e.ptxas_options.getD []).length +
    (e.identifier.getD []).length < 256 ^ 4 ∧
  utf8Valid (e.ptxas_options.getD []) = true ∧
  utf8Valid (e.identifier.getD []) = true

instance (e : FatBinaryEntry) : Decidable (InMemWF e) := by
  unfold InMemWF
  infer_instance

theorem parseU_leBytes_nil (w n : Nat) :
    parseU w (leBytes w n) = some (n % 256 ^ w, []) := by
  have h := parseU_leBytes w n []
  simpa using h

/-- Parsing back the 64 emitted header bytes recovers the header, provided
every field fits its width. -/
theorem parseEntryHeaderChunk_entryHeaderBytes (h : FatBinaryEntryHeader)
    (hk : h.kind < 256 ^ 2) (hu : h.unknown1 < 256 ^ 2)
    (hh : h.header_size < 256 ^ 4) (hs : h.size < 256 ^ 8)
    (hc : h.compressed_size < 256 ^ 4) (ho : h.options_offset < 256 ^ 4)
    (hmi : h.minor < 256 ^ 2) (hma : h.major < 256 ^ 2)
    (ha : h.arch < 256 ^ 4) (hio : h.identifier_offset < 256 ^ 4)
    (hil : h.identifier_len < 256 ^ 4) (hf : h.flags < 256 ^ 8)
    (hz : h.zero < 256 ^ 8) (hd : h.decompressed_size < 256 ^ 8) :
    parseEntryHeaderChunk (entryHeaderBytes h) = some h := by
  rw [parseEntryHeaderChunk.eq_def]
  simp only [entryHeaderBytes, List.append_assoc]
  simp only [parseU_leBytes, parseU_leBytes_nil]
  rw [Nat.mod_eq_of_lt hk, Nat.mod_eq_of_lt hu, Nat.mod_eq_of_lt hh,
    Nat.mod_eq_of_lt hs, Nat.mod_eq_of_lt hc, Nat.mod_eq_of_lt ho,
    Nat.mod_eq_of_lt hmi, Nat.mod_eq_of_lt hma, Nat.mod_eq_of_lt ha,
    Nat.mod_eq_of_lt hio, Nat.mod_eq_of_lt hil, Nat.mod_eq_of_lt hf,
    Nat.mod_eq_of_lt hz, Nat.mod_eq_of_lt hd]

theorem entrySizing_wf (e : FatBinaryEntry)
    (h64 : e.entry_header.header_size = 64)
    (hb : 72 + (e.ptxas_options.getD []).length +
      (e.identifier.getD []).length < 256 ^ 4) :
    entrySizing e =
      ⟨(e.identifier.getD []).length, (e.ptxas_options.getD []).length,
        72 + (e.ptxas_options.getD []).length, 72,
        72 + (e.ptxas_options.getD []).length +
          (e.identifier.getD []).length⟩ := by
  have h2564 : (256:Nat) ^ 4 = 4294967296 := by norm_num
  have pow32 : (2:Nat) ^ 32 = 4294967296 := by norm_num
  rw [h2564] at hb
  simp only [entrySizing, h64, EntrySizing.mk.injEq, pow32]
  norm_num
  omega

theorem writtenEntryHeader_wf (e : FatBinaryEntry)
    (h64 : e.entry_header.header_size = 64)
    (hb : 72 + (e.ptxas_options.getD []).length +
      (e.identifier.getD []).length < 256 ^ 4) :
    writtenEntryHeader e =
      { e.entry_header with
        header_size := 72 + (e.ptxas_options.getD []).length +
          (e.identifier.getD []).length
        identifier_offset := 72 + (e.ptxas_options.getD []).length
        identifier_len := (e.identifier.getD []).length } := by
  have h2564 : (256:Nat) ^ 4 = 4294967296 := by norm_num
  have pow32 : (2:Nat) ^ 32 = 4294967296 := by norm_num
  simp only [writtenEntryHeader, entrySizing_wf e h64 hb, pow32]
  rw [Nat.mod_eq_of_lt (by rw [h2564] at hb; omega)]

theorem entryBytes_wf (e : FatBinaryEntry)
    (h64 : e.entry_header.header_size = 64)
    (hb : 72 + (e.ptxas_options.getD []).length +
      (e.identifier.getD []).length < 256 ^ 4) :
    entryBytes e =
      entryHeaderBytes (writtenEntryHeader e) ++
      (leBytes 4 72 ++ leBytes 4 (e.ptxas_options.getD []).length) ++
      e.ptxas_options.getD [] ++ e.identifier.getD [] ++ e.payload := by
  simp only [entryBytes, entrySizing_wf e h64 hb]

theorem entryBytes_length_wf (e : FatBinaryEntry)
    (h64 : e.entry_header.header_size = 64)
    (hb : 72 + (e.ptxas_options.getD []).length +
      (e.identifier.getD []).length < 256 ^ 4) :
    (entryBytes e).length = 72 + (e.ptxas_options.getD []).length +
      (e.identifier.getD []).length + e.payload.length := by
  rw [entryBytes_wf e h64 hb]
  simp [entryHeaderBytes_length, leBytes_length]
  omega

theorem entryTotal_wf (e : FatBinaryEntry)
    (h64 : e.entry_header.header_size = 64)
    (hb : 72 + (e.ptxas_options.getD []).length +
      (e.identifier.getD []).length < 256 ^ 4)
    (hsz : e.entry_header.size = e.payload.length) :
    entryTotal e = 72 + (e.ptxas_options.getD []).length +
      (e.identifier.getD []).length + e.payload.length := by
  rw [entryTotal, entrySizing_wf e h64 hb, hsz]

theorem readBytes?_at_hdr (pre R : List Nat) (e : FatBinaryEntry)
    (h64 : e.entry_header.header_size = 64)
    (hb : 72 + (e.ptxas_options.getD []).length +
      (e.identifier.getD []).length < 256 ^ 4) :
    readBytes? (pre ++ (entryBytes e ++ R)) pre.length 64 =
      some (entryHeaderBytes (writtenEntryHeader e)) := by
  rw [readBytes?_append_at pre (entryBytes e ++ R) pre.length 0 64 (by omega)]
  rw [entryBytes_wf e h64 hb]
  simp only [List.append_assoc]
  rw [show (64:Nat) = (entryHeaderBytes (writtenEntryHeader e)).length from
    (entryHeaderBytes_length _).symm]
  exact readBytes?_prefix _ _

theorem readLE?_at_64 (pre R : List Nat) (e : FatBinaryEntry)
    (h64 : e.entry_header.header_size = 64)
    (hb : 72 + (e.ptxas_options.getD []).length +
      (e.identifier.getD []).length < 256 ^ 4) :
    readLE? (pre ++ (entryBytes e ++ R)) (pre.length + 64) 4 = some 72 := by
  rw [readLE?_append_at pre (entryBytes e ++ R) (pre.length + 64) 64 4
    (by omega)]
  rw [entryBytes_wf e h64 hb]
  simp only [List.append_assoc]
  rw [readLE?_append_at (entryHeaderBytes (writtenEntryHeader e)) _ 64 0 4
    (by simp [entryHeaderBytes_length])]
  rw [readLE?_leBytes]
  norm_num

theorem readLE?_at_68 (pre R : List Nat) (e : FatBinaryEntry)
    (h64 : e.entry_header.header_size = 64)
    (hb : 72 + (e.ptxas_options.getD []).length +
      (e.identifier.getD []).length < 256 ^ 4) :
    readLE? (pre ++ (entryBytes e ++ R)) (pre.length + 64 + 4) 4 =
      some (e.ptxas_options.getD []).length := by
  rw [readLE?_append_at pre (entryBytes e ++ R) (pre.length + 64 + 4) 68 4
    (by omega)]
  rw [entryBytes_wf e h64 hb]
  simp only [List.append_assoc]
  rw [readLE?_append_at (entryHeaderBytes (writtenEntryHeader e)) _ 68 4 4
    (by simp [entryHeaderBytes_length])]
  rw [readLE?_append_at (leBytes 4 72) _ 4 0 4 (by simp [leBytes_length])]
  rw [readLE?_leBytes]
  rw [Nat.mod_eq_of_lt (by
    have h4 : (256:Nat) ^ 4 = 4294967296 := by norm_num
    rw [h4] at hb ⊢
    omega)]

theorem readBytes?_at_opts (pre R : List Nat) (e : FatBinaryEntry)
    (h64 : e.entry_header.header_size = 64)
    (hb : 72 + (e.ptxas_options.getD []).length +
      (e.identifier.getD []).length < 256 ^ 4) :
    readBytes? (pre ++ (entryBytes e ++ R)) (pre.length + 72)
      (e.ptxas_options.getD []).length = some (e.ptxas_options.getD []) := by
  rw [readBytes?_append_at pre (entryBytes e ++ R) (pre.length + 72) 72
    _ (by omega)]
  rw [entryBytes_wf e h64 hb]
  simp only [List.append_assoc]
  rw [readBytes?_append_at (entryHeaderBytes (writtenEntryHeader e)) _ 72 8
    _ (by simp [entryHeaderBytes_length])]
  rw [readBytes?_append_at (leBytes 4 72) _ 8 4 _ (by simp [leBytes_length])]
  rw [readBytes?_append_at (leBytes 4 (e.ptxas_options.getD []).length) _ 4 0
    _ (by simp [leBytes_length])]
  exact readBytes?_prefix _ _

theorem readBytes?_at_id (pre R : List Nat) (e : FatBinaryEntry)
    (h64 : e.entry_header.header_size = 64)
    (hb : 72 + (e.ptxas_options.getD []).length +
      (e.identifier.getD []).length < 256 ^ 4) :
    readBytes? (pre ++ (entryBytes e ++ R))
      (pre.length + (72 + (e.ptxas_options.getD []).length))
      (e.identifier.getD []).length = some (e.identifier.getD []) := by
  rw [readBytes?_append_at pre (entryBytes e ++ R)
    (pre.length + (72 + (e.ptxas_options.getD []).length))
    (72 + (e.ptxas_options.getD []).length) _ (by omega)]
  rw [entryBytes_wf e h64 hb]
  simp only [List.append_assoc]
  rw [readBytes?_append_at (entryHeaderBytes (writtenEntryHeader e)) _
    (72 + (e.ptxas_options.getD []).length)
    (8 + (e.ptxas_options.getD []).length) _
    (by simp [entryHeaderBytes_length]; omega)]
  rw [readBytes?_append_at (leBytes 4 72) _
    (8 + (e.ptxas_options.getD []).length)
    (4 + (e.ptxas_options.getD []).length) _
    (by simp [leBytes_length]; omega)]
  rw [readBytes?_append_at (leBytes 4 (e.ptxas_options.getD []).length) _
    (4 + (e.ptxas_options.getD []).length) (e.ptxas_options.getD []).length _
    (by simp [leBytes_length])]
  rw [readBytes?_append_at (e.ptxas_options.getD []) _
    (e.ptxas_options.getD []).length 0 _ (by omega)]
  exact readBytes?_prefix _ _

theorem readBytes?_at_payload (pre R : List Nat) (e : FatBinaryEntry)
    (h64 : e.entry_header.header_size = 64)
    (hb : 72 + (e.ptxas_options.getD []).length +
      (e.identifier.getD []).length < 256 ^ 4) :
    readBytes? (pre ++ (entryBytes e ++ R))
      (pre.length + (72 + (e.ptxas_options.getD []).length +
        (e.identifier.getD []).length))
      e.payload.length = some e.payload := by
  rw [readBytes?_append_at pre (entryBytes e ++ R)
    (pre.length + (72 + (e.ptxas_options.getD []).length +
      (e.identifier.getD []).length))
    (72 + (e.ptxas_options.getD []).length +
      (e.identifier.getD []).length) _ (by omega)]
  rw [entryBytes_wf e h64 hb]
  simp only [List.append_assoc]
  rw [readBytes?_append_at (entryHeaderBytes (writtenEntryHeader e)) _
    (72 + (e.ptxas_options.getD []).length + (e.identifier.getD []).length)
    (8 + (e.ptxas_options.getD []).length + (e.identifier.getD []).length) _
    (by simp [entryHeaderBytes_length]; omega)]
  rw [readBytes?_append_at (leBytes 4 72) _
    (8 + (e.ptxas_options.getD []).length + (e.identifier.getD []).length)
    (4 + (e.ptxas_options.getD []).length + (e.identifier.getD []).length) _
    (by simp [leBytes_length]; omega)]
  rw [readBytes?_append_at (leBytes 4 (e.ptxas_options.getD []).length) _
    (4 + (e.ptxas_options.getD []).length + (e.identifier.getD []).length)
    ((e.ptxas_options.getD []).length + (e.identifier.getD []).length) _
    (by simp [leBytes_length]; omega)]
  rw [readBytes?_append_at (e.ptxas_options.getD []) _
    ((e.ptxas_options.getD []).length + (e.identifier.getD []).length)
    (e.identifier.getD []).length _ (by omega)]
  rw [readBytes?_append_at (e.identifier.getD []) _
    (e.identifier.getD []).length 0 _ (by omega)]
  exact readBytes?_prefix _ _

theorem parse_writtenEntryHeader (e : FatBinaryEntry) (hwfe : InMemWF e) :
    parseEntryHeaderChunk (entryHeaderBytes (writtenEntryHeader e)) =
      some (writtenEntryHeader e) := by
  obtain ⟨h64, hopt, hszeq, hk, hu, hs, hc, hmi, hma, ha, hf, hz, hd, hb,
    hputf, hiutf⟩ := hwfe
  have h4 : (256:Nat) ^ 4 = 4294967296 := by norm_num
  rw [writtenEntryHeader_wf e h64 hb]
  exact parseEntryHeaderChunk_entryHeaderBytes _ hk hu hb hs hc
    (show e.entry_header.options_offset < 256 ^ 4 by rw [hopt]; norm_num)
    hmi hma ha
    (show 72 + (e.ptxas_options.getD []).length < 256 ^ 4 by
      rw [h4] at hb ⊢; omega)
    (show (e.identifier.getD []).length < 256 ^ 4 by rw [h4] at hb ⊢; omega)
    hf hz hd

theorem readPtxasOptions_write (pre R : List Nat) (e : FatBinaryEntry)
    (hwfe : InMemWF e) :
    readPtxasOptions (pre ++ (entryBytes e ++ R)) pre.length
      (writtenEntryHeader e) = .ok (some (e.ptxas_options.getD [])) := by
  obtain ⟨h64, hopt, hszeq, hk, hu, hs, hc, hmi, hma, ha, hf, hz, hd, hb,
    hputf, hiutf⟩ := hwfe
  have hoo : (writtenEntryHeader e).options_offset = 64 := by
    rw [writtenEntryHeader_wf e h64 hb]
    exact hopt
  rw [readPtxasOptions, hoo]
  simp only [gt_iff_lt, Nat.zero_lt_succ, if_true, show (0:Nat) < 64 by
    norm_num, if_pos, readLE?_at_64 pre R e h64 hb,
    readLE?_at_68 pre R e h64 hb, readBytes?_at_opts pre R e h64 hb, hputf]
  simp

theorem readIdentifier_write (pre R : List Nat) (e : FatBinaryEntry)
    (hwfe : InMemWF e) :
    readIdentifier (pre ++ (entryBytes e ++ R)) pre.length
      (writtenEntryHeader e) = .ok (some (e.identifier.getD [])) := by
  obtain ⟨h64, hopt, hszeq, hk, hu, hs, hc, hmi, hma, ha, hf, hz, hd, hb,
    hputf, hiutf⟩ := hwfe
  have hio : (writtenEntryHeader e).identifier_offset =
      72 + (e.ptxas_options.getD []).length := by
    rw [writtenEntryHeader_wf e h64 hb]
  have hil : (writtenEntryHeader e).identifier_len =
      (e.identifier.getD []).length := by
    rw [writtenEntryHeader_wf e h64 hb]
  rw [readIdentifier, hio, hil]
  simp only [gt_iff_lt, readBytes?_at_id pre R e h64 hb, hiutf]
  simp

/-- Running the entry loop over the writer's output reads back the entries,
`readBackEntry`-transformed, consuming exactly the declared size. -/
theorem readEntries_write :
    ∀ (es : List FatBinaryEntry) (pre : List Nat) (fuel cur size : Nat),
      (∀ e ∈ es, InMemWF e) →
      es.length ≤ fuel →
      size = cur + (es.map entryTotal).sum →
      readEntries (pre ++ (es.map entryBytes).flatten) fuel size pre.length cur
        = .ok (es.map readBackEntry, size) := by
  intro es
  induction es with
  | nil =>
    intro pre fuel cur size hwf hfuel hsz
    rw [readEntries.eq_def]
    simp only [List.map_nil, List.sum_nil, Nat.add_zero] at hsz
    rw [if_neg (by omega), hsz]
    simp
  | cons e rest ih =>
    intro pre fuel cur size hwf hfuel hsz
    have hwfe : InMemWF e := hwf e (List.mem_cons_self e rest)
    obtain ⟨h64, hopt, hszeq, hk, hu, hs, hc, hmi, hma, ha, hf, hz, hd, hb,
      hputf, hiutf⟩ := id hwfe
    have htot : entryTotal e = 72 + (e.ptxas_options.getD []).length +
        (e.identifier.getD []).length + e.payload.length :=
      entryTotal_wf e h64 hb hszeq
    have hsum : ((e :: rest).map entryTotal).sum =
        entryTotal e + (rest.map entryTotal).sum := by simp
    have hlt : cur < size := by
      rw [hsz, hsum]
      omega
    cases fuel with
    | zero => simp at hfuel
    | succ f =>
      have hfuel' : rest.length ≤ f := by
        simp at hfuel
        omega
      have hBeq : pre ++ ((e :: rest).map entryBytes).flatten
          = pre ++ (entryBytes e ++ (rest.map entryBytes).flatten) := by simp
      have hh1 : (writtenEntryHeader e).header_size =
          72 + (e.ptxas_options.getD []).length +
            (e.identifier.getD []).length := by
        rw [writtenEntryHeader_wf e h64 hb]
      have hh2 : (writtenEntryHeader e).size = e.payload.length := by
        rw [writtenEntryHeader_wf e h64 hb]
        exact hszeq
      have hlen : (pre ++ entryBytes e).length =
          pre.length + (72 + (e.ptxas_options.getD []).length +
            (e.identifier.getD []).length) + e.payload.length := by
        simp [entryBytes_length_wf e h64 hb]
        omega
      have hcur : cur + entryTotal e =
          cur + (72 + (e.ptxas_options.getD []).length +
            (e.identifier.getD []).length) + e.payload.length := by
        rw [htot]
        omega
      have hrec := ih (pre ++ entryBytes e) f (cur + entryTotal e) size
        (fun x hx => hwf x (List.mem_cons_of_mem e hx)) hfuel'
        (by rw [hsz, hsum]; omega)
      rw [List.append_assoc, hlen, hcur] at hrec
      have hrb : (⟨writtenEntryHeader e, some (e.identifier.getD []),
          some (e.ptxas_options.getD []), e.payload⟩ : FatBinaryEntry) =
          readBackEntry e := by
        rw [writtenEntryHeader_wf e h64 hb, readBackEntry]
      rw [hBeq, readEntries.eq_def, if_pos hlt]
      simp only [orErr, readBytes?_at_hdr pre _ e h64 hb,
        parse_writtenEntryHeader e hwfe,
        readPtxasOptions_write pre _ e hwfe,
        readIdentifier_write pre _ e hwfe,
        hh1, hh2, readBytes?_at_payload pre _ e h64 hb,
        hrec, Bind.bind, Except.bind, pure, Except.pure, List.map_cons, hrb]

theorem length_le_sum_of_ge_one {α : Type} (f : α → Nat) :
    ∀ l : List α, (∀ x ∈ l, 1 ≤ f x) → l.length ≤ (l.map f).sum := by
  intro l
  induction l with
  | nil => simp
  | cons a t ih =>
    intro h
    have h1 := h a (by simp)
    have h2 := ih (fun x hx => h x (by simp [hx]))
    simp
    omega

/-- Claim C1 counterexample: writing the container holding the single
synthesized entry `new(false, 80, 0, 0, true, [])` and reading it back does
not reproduce the container: the read-back entry has `header_size = 72`
(not 64), `identifier_offset = 72` (not 0), and `Some ""`-style identifier
and ptxas options where the original had `None`. -/
theorem claim_C1_counterexample :
    FatBinary.read (FatBinary.write ⟨[FatBinaryEntry.new false 80 0 0 true []]⟩)
      ≠ .ok ⟨[FatBinaryEntry.new false 80 0 0 true []]⟩ := by
  decide

/-- Claim C1, amended: for any container C of well-formed in-memory entries
(stored `header_size = 64` and `options_offset = 0x40` as `new` produces,
`size` equal to the payload length, fields within machine widths, UTF-8
strings), reading back the written bytes succeeds and yields C with each
entry replaced by `readBackEntry`: flags, payload bytes, entry order and
all other header fields are preserved, but `header_size` becomes
`64 + 8 + P + I`, `identifier_offset` becomes `72 + P`, `identifier_len`
becomes `I`, and the identifier and ptxas options come back as `some` of
their byte strings (empty when previously absent). -/
theorem claim_C1_amended (C : FatBinary)
    (hwf : ∀ e ∈ C.entries, InMemWF e)
    (htotal : (C.entries.map entryTotal).sum < 256 ^ 8) :
    FatBinary.read (FatBinary.write C) =
      .ok ⟨C.entries.map readBackEntry⟩ := by
  have hpow : (2:Nat) ^ 64 = 256 ^ 8 := by norm_num
  have htz : totalSize C = (C.entries.map entryTotal).sum := by
    rw [totalSize, hpow]
    exact Nat.mod_eq_of_lt htotal
  have hhdr : parseContainerHeader (FatBinary.write C) =
      some ⟨0xBA55ED50, 1, 16, totalSize C⟩ := by
    simp only [FatBinary.write, FAT_BINARY_MAGIC, List.append_assoc]
    simp only [parseContainerHeader, parseU_leBytes, Option.some_bind,
      Option.bind_eq_bind]
    rw [htz]
    norm_num
    have h8 : (256:Nat) ^ 8 = 18446744073709551616 := by norm_num
    rw [h8] at htotal
    omega
  have hpre : FatBinary.write C =
      (leBytes 4 0xBA55ED50 ++ leBytes 2 1 ++ leBytes 2 16 ++
        leBytes 8 (totalSize C)) ++ (C.entries.map entryBytes).flatten := by
    simp [FatBinary.write, FAT_BINARY_MAGIC, List.append_assoc]
  have hplen : (leBytes 4 0xBA55ED50 ++ leBytes 2 1 ++ leBytes 2 16 ++
      leBytes 8 (totalSize C)).length = 16 := by
    simp [leBytes_length]
  have hfuel : C.entries.length ≤ totalSize C + 1 := by
    have h1 : C.entries.length ≤ (C.entries.map entryTotal).sum := by
      apply length_le_sum_of_ge_one
      intro x hx
      obtain ⟨h64, hopt, hszeq, hk, hu, hs, hc, hmi, hma, ha, hf, hz, hd, hb,
        hputf, hiutf⟩ := hwf x hx
      rw [entryTotal_wf x h64 hb hszeq]
      omega
    omega
  have hre := readEntries_write C.entries
    (leBytes 4 0xBA55ED50 ++ leBytes 2 1 ++ leBytes 2 16 ++
      leBytes 8 (totalSize C))
    (totalSize C + 1) 0 (totalSize C) hwf hfuel (by rw [htz]; omega)
  rw [hplen, ← hpre] at hre
  simp [FatBinary.read, orErr, hhdr, FAT_BINARY_MAGIC, hre, Bind.bind,
    Except.bind, pure, Except.pure, Functor.map, Except.map]

/-- Witness for claim C1 (amended): the concrete single-entry container —
a PTX entry with identifier `a.ptx`, ptxas options `-O`, and payload `09` —
reads back as its `readBackEntry` image. -/
theorem claim_C1_witness :
    FatBinary.read (FatBinary.write
      ⟨[((FatBinaryEntry.new false 80 8 3 true [9]).setIdentifier
        [97, 46, 112, 116, 120]).setPtxasOptions [45, 79]]⟩) =
      .ok ⟨[readBackEntry (((FatBinaryEntry.new false 80 8 3 true
        [9]).setIdentifier [97, 46, 112, 116, 120]).setPtxasOptions
        [45, 79])]⟩ := by
  exact claim_C1_amended
    ⟨[((FatBinaryEntry.new false 80 8 3 true [9]).setIdentifier
      [97, 46, 112, 116, 120]).setPtxasOptions [45, 79]]⟩
    (by decide) (by decide)
